import Mathlib

/-!
Verification of the text-layout subsystem of the image-overlay server
(src/server.js): text width estimation, paragraph wrapping, long-word
breaking and the binary search for an optimal font size.

Embedding conventions:
* JS strings are represented as lists of Unicode characters (List Char).
* JS numbers are represented as exact rationals (ℚ); all arithmetic in the
  layout code is sums, products and comparisons of decimal constants.
* JS Math.round coincides with Mathlib round (both send x to ⌊x + 1/2⌋).
* A JS string is truthy exactly when it is nonempty; undefined (which can
  only flow into currentLine, where it is used solely for truthiness and
  is falsy) is represented by the empty list.
-/

namespace TextLayout

/-- The character class of the JS regular expression \s (WhiteSpace and
LineTerminator), used by split(/\s+/) and by trim(). -/
def isJsWs (c : Char) : Bool :=
  c == ' ' || c == '\t' || c == '\n' || c == '\r' || c == '\x0b' || c == '\x0c' ||
  c == '\u00A0' || c == '\u1680' || ('\u2000' ≤ c && c ≤ '\u200A') ||
  c == '\u2028' || c == '\u2029' || c == '\u202F' || c == '\u205F' ||
  c == '\u3000' || c == '\uFEFF'

/-- The fontMetrics lookup table of estimateTextWidth, as
(normal multiplier, bold multiplier); the final pair is the
default used for unknown families. -/
def fontMetrics (fontFamily : String) : ℚ × ℚ :=
  if fontFamily = "Arial" then (52/100, 58/100)
  else if fontFamily = "Helvetica" then (52/100, 58/100)
  else if fontFamily = "Times" then (48/100, 54/100)
  else if fontFamily = "Times New Roman" then (48/100, 54/100)
  else if fontFamily = "Georgia" then (51/100, 57/100)
  else if fontFamily = "Courier" then (60/100, 60/100)
  else if fontFamily = "Courier New" then (60/100, 60/100)
  else if fontFamily = "Verdana" then (58/100, 64/100)
  else if fontFamily = "Impact" then (48/100, 48/100)
  else if fontFamily = "Comic Sans MS" then (55/100, 61/100)
  else (52/100, 58/100)

/-- weightMultiplier = fontWeight === 'bold' ? metrics.bold : metrics.normal. -/
def weightMultiplier (fontFamily fontWeight : String) : ℚ :=
  if fontWeight = "bold" then (fontMetrics fontFamily).2 else (fontMetrics fontFamily).1

/-- The per-character multiplier of estimateTextWidth: the weight-selected
base multiplier adjusted by the character-class chain of if-tests. -/
def charMultiplier (wm : ℚ) (c : Char) : ℚ :=
  if c ∈ ['i', 'I', 'l', '1'] then wm * (4/10)
  else if c ∈ ['f', 'j', 't', 'J'] then wm * (5/10)
  else if c ∈ ['r', 'F'] then wm * (65/100)
  else if c ∈ ['m', 'w', 'M', 'W'] then wm * (15/10)
  else if c ∈ [' '] then wm * (3/10)
  else if c ∈ ['.', ',', ';', ':', '!', '|'] then wm * (35/100)
  else wm

/-- estimateTextWidth: totalWidth = Σ fontSize * charMultiplier over the text. -/
def estimateTextWidth (text : List Char) (fontSize : ℚ) (fontFamily fontWeight : String) : ℚ :=
  (text.map (fun c => fontSize * charMultiplier (weightMultiplier fontFamily fontWeight) c)).sum

/-- text.split('\n'): split at every newline, keeping empty segments. -/
def splitNl : List Char → List (List Char)
  | [] => [[]]
  | c :: rest =>
    if c = '\n' then [] :: splitNl rest
    else
      match splitNl rest with
      | [] => [[c]]
      | p :: ps => (c :: p) :: ps

/-- Worker for paragraph.split(/\s+/), scanning left to right: cut at
maximal runs of \s characters, producing a leading (resp. trailing) empty
word when the paragraph starts (resp. ends) with whitespace. The Boolean
records whether the scanner is inside a whitespace run (the word to its
left having already been emitted). -/
def splitWsAux : Bool → List Char → List Char → List (List Char)
  | false, [], acc => [acc.reverse]
  | false, c :: rest, acc =>
    if isJsWs c then acc.reverse :: splitWsAux true rest []
    else splitWsAux false rest (c :: acc)
  | true, [], _ => [[]]
  | true, c :: rest, acc =>
    if isJsWs c then splitWsAux true rest acc
    else splitWsAux false rest [c]

/-- paragraph.split(/\s+/). -/
def splitWs (s : List Char) : List (List Char) := splitWsAux false s []

/-- array.join(' '): the elements in order with a single space between
consecutive ones. -/
def joinWords : List (List Char) → List Char
  | [] => []
  | [w] => w
  | w :: ws => w ++ ' ' :: joinWords ws

/-- The character-walking loop of breakLongWord, with the remaining
characters and the accumulating currentPart as state; rest ≠ [] renders
the loop-index guard i < word.length - 1. The trailing
if (currentPart) parts.push(currentPart) is the base case. -/
def breakCore (maxWidth fontSize : ℚ) (fontFamily fontWeight : String) :
    List Char → List Char → List (List Char)
  | [], currentPart => if currentPart ≠ [] then [currentPart] else []
  | c :: rest, currentPart =>
    let testPart := currentPart ++ [c]
    if estimateTextWidth (testPart ++ ['-']) fontSize fontFamily fontWeight ≤ maxWidth ∧
        rest ≠ [] then
      breakCore maxWidth fontSize fontFamily fontWeight rest testPart
    else
      if currentPart ≠ [] then
        (currentPart ++ ['-']) :: breakCore maxWidth fontSize fontFamily fontWeight rest [c]
      else
        [c] :: breakCore maxWidth fontSize fontFamily fontWeight rest []

/-- breakLongWord: return [word] when it already fits, otherwise walk it. -/
def breakLongWord (word : List Char) (maxWidth fontSize : ℚ) (fontFamily fontWeight : String) :
    List (List Char) :=
  if estimateTextWidth word fontSize fontFamily fontWeight ≤ maxWidth then [word]
  else breakCore maxWidth fontSize fontFamily fontWeight word []

/-- The mutable (lines, currentLine) pair of wrapText's per-paragraph loop. -/
structure WrapState where
  lines : List (List Char)
  currentLine : List Char
deriving DecidableEq

/-- One iteration of wrapText's for (const word of words) loop. -/
def processWord (maxWidth fontSize : ℚ) (fontFamily fontWeight : String)
    (st : WrapState) (word : List Char) : WrapState :=
  let testLine := if st.currentLine = [] then word else st.currentLine ++ ' ' :: word
  if estimateTextWidth testLine fontSize fontFamily fontWeight ≤ maxWidth then
    ⟨st.lines, testLine⟩
  else
    if st.currentLine ≠ [] then
      if estimateTextWidth word fontSize fontFamily fontWeight > maxWidth then
        match breakLongWord word maxWidth fontSize fontFamily fontWeight with
        | b0 :: b1 :: bs => ⟨st.lines ++ [st.currentLine, b0], joinWords (b1 :: bs)⟩
        | _ => ⟨st.lines ++ [st.currentLine], word⟩
      else ⟨st.lines ++ [st.currentLine], word⟩
    else
      let broken := breakLongWord word maxWidth fontSize fontFamily fontWeight
      ⟨st.lines ++ broken.dropLast, (broken.getLast?).getD []⟩

/-- One iteration of wrapText's for (const paragraph of paragraphs) loop:
whitespace-only paragraphs (empty trim) contribute a single empty line,
other paragraphs are wrapped word by word, the last currentLine being
pushed when nonempty. -/
def processParagraph (maxWidth fontSize : ℚ) (fontFamily fontWeight : String)
    (paragraph : List Char) : List (List Char) :=
  if paragraph.all isJsWs then [[]]
  else
    let st := (splitWs paragraph).foldl (processWord maxWidth fontSize fontFamily fontWeight)
      ⟨[], []⟩
    if st.currentLine ≠ [] then st.lines ++ [st.currentLine] else st.lines

/-- wrapText: split on explicit newlines, wrap each paragraph, concatenate. -/
def wrapText (text : List Char) (maxWidth fontSize : ℚ) (fontFamily fontWeight : String) :
    List (List Char) :=
  (splitNl text).flatMap (processParagraph maxWidth fontSize fontFamily fontWeight)

/-- The { fontSize, wrappedLines, lineHeight } record produced by
calculateOptimalFontSize. -/
structure FontFitResult where
  fontSize : ℚ
  wrappedLines : List (List Char)
  lineHeight : ℚ
deriving DecidableEq

/-- The inputs of calculateOptimalFontSize's binary search that stay fixed
across iterations. -/
structure SearchCtx where
  text : List Char
  maxTextWidth : ℚ
  fontFamily : String
  fontWeight : String
  lineHeightMultiplier : ℚ
  maxTextHeight : ℚ
  maxLines : ℚ

/-- The fit test of the binary search at a probed font size:
wrappedLines.length * lineHeight ≤ maxTextHeight and
wrappedLines.length ≤ maxLines. -/
def fitsCtx (ctx : SearchCtx) (s : ℚ) : Prop :=
  ((wrapText ctx.text ctx.maxTextWidth s ctx.fontFamily ctx.fontWeight).length : ℚ) *
      (s * ctx.lineHeightMultiplier) ≤ ctx.maxTextHeight ∧
  ((wrapText ctx.text ctx.maxTextWidth s ctx.fontFamily ctx.fontWeight).length : ℚ) ≤
    ctx.maxLines

instance (ctx : SearchCtx) (s : ℚ) : Decidable (fitsCtx ctx s) := by
  unfold fitsCtx
  infer_instance

/-- The while (high - low > 1) binary-search loop of
calculateOptimalFontSize; fontSize = Math.round((low + high) / 2), a
successful probe is recorded in best and raises low, a failed one lowers
high to fontSize - 1. -/
def fontSearch (ctx : SearchCtx) (low high : ℚ) (best : Option FontFitResult) :
    Option FontFitResult :=
  if h : high - low > 1 then
    let fontSize : ℤ := round ((low + high) / 2)
    let lineHeight : ℚ := (fontSize : ℚ) * ctx.lineHeightMultiplier
    let wrappedLines := wrapText ctx.text ctx.maxTextWidth (fontSize : ℚ)
      ctx.fontFamily ctx.fontWeight
    if (wrappedLines.length : ℚ) * lineHeight ≤ ctx.maxTextHeight ∧
        (wrappedLines.length : ℚ) ≤ ctx.maxLines then
      fontSearch ctx (fontSize : ℚ) high (some ⟨(fontSize : ℚ), wrappedLines, lineHeight⟩)
    else
      fontSearch ctx low ((fontSize : ℚ) - 1) best
  else best
termination_by 2 * ⌈high - low⌉₊ + (if (low : ℚ).den = 1 then 0 else 1)
decreasing_by
  · -- successful probe: low rises to the integer round((low + high) / 2)
    have hr : |((low + high) / 2) - (round ((low + high) / 2) : ℚ)| ≤ 1 / 2 :=
      abs_sub_round ((low + high) / 2)
    rw [abs_le] at hr
    have hlow : low < (round ((low + high) / 2) : ℚ) := by
      have := hr.2
      linarith
    have hden : ((round ((low + high) / 2) : ℤ) : ℚ).den = 1 := Rat.intCast_den _
    have hc2 : (1 : ℚ) < high - low := by linarith
    have hcl : 2 ≤ ⌈high - low⌉₊ := by
      have : 1 < ⌈high - low⌉₊ := Nat.lt_ceil.mpr (by push_cast; linarith)
      omega
    have hcast : ((⌈high - low⌉₊ - 1 : ℕ) : ℚ) = (⌈high - low⌉₊ : ℚ) - 1 := by
      have h1 : 1 ≤ ⌈high - low⌉₊ := by omega
      push_cast [Nat.cast_sub h1]
      ring
    by_cases hfl : low.den = 1
    · -- low is itself an integer, so the probe is at least low + 1
      have hlz : (low.num : ℚ) = low := by
        have h2 := Rat.num_div_den low
        rw [hfl] at h2
        simpa using h2
      have hnum : low.num < round ((low + high) / 2) := by
        rw [← @Int.cast_lt ℚ]
        rw [hlz]
        exact hlow
      have hstep : low + 1 ≤ (round ((low + high) / 2) : ℚ) := by
        have h3 : ((low.num + 1 : ℤ) : ℚ) ≤ ((round ((low + high) / 2) : ℤ) : ℚ) := by
          exact_mod_cast hnum
        push_cast at h3
        rw [hlz] at h3
        exact h3
      have hle : ⌈high - (round ((low + high) / 2) : ℚ)⌉₊ ≤ ⌈high - low⌉₊ - 1 := by
        rw [Nat.ceil_le, hcast]
        have := Nat.le_ceil (high - low)
        linarith
      simp only [hden, hfl, if_true]
      omega
    · -- low is not an integer: the gap cannot grow and the flag drops
      have hle : ⌈high - (round ((low + high) / 2) : ℚ)⌉₊ ≤ ⌈high - low⌉₊ :=
        Nat.ceil_le_ceil (by linarith)
      simp only [hden, hfl, if_true, if_false]
      omega
  · -- failed probe: high fell to round((low + high) / 2) - 1
    have hr : |((low + high) / 2) - (round ((low + high) / 2) : ℚ)| ≤ 1 / 2 :=
      abs_sub_round ((low + high) / 2)
    rw [abs_le] at hr
    have hc2 : (1 : ℚ) < high - low := by linarith
    have hcl : 2 ≤ ⌈high - low⌉₊ := by
      have : 1 < ⌈high - low⌉₊ := Nat.lt_ceil.mpr (by push_cast; linarith)
      omega
    have hgap : (round ((low + high) / 2) : ℚ) - 1 - low ≤ (high - low - 1) / 2 := by
      have := hr.1
      linarith
    have hle : ⌈(round ((low + high) / 2) : ℚ) - 1 - low⌉₊ ≤ ⌈high - low⌉₊ - 1 := by
      rw [Nat.ceil_le]
      have hcast : ((⌈high - low⌉₊ - 1 : ℕ) : ℚ) = (⌈high - low⌉₊ : ℚ) - 1 := by
        have h1 : 1 ≤ ⌈high - low⌉₊ := by omega
        push_cast [Nat.cast_sub h1]
        ring
      rw [hcast]
      have := Nat.le_ceil (high - low)
      have hhalf : (high - low - 1) / 2 ≤ high - low - 1 := by linarith
      linarith
    omega

/-- The explicit option record of calculateOptimalFontSize (all fields
resolved; the JS destructuring defaults are in defaultLayoutOptions). -/
structure LayoutOptions where
  maxFontSize : ℚ
  minFontSize : ℚ
  fontFamily : String
  fontWeight : String
  paddingPercent : ℚ
  lineHeightMultiplier : ℚ
  maxLines : ℚ
deriving DecidableEq

/-- The destructuring defaults of calculateOptimalFontSize for an empty
options object. -/
def defaultLayoutOptions (imageWidth imageHeight : ℚ) : LayoutOptions :=
  { maxFontSize := min imageWidth imageHeight * (15/100)
    minFontSize := max 12 (min imageWidth imageHeight * (2/100))
    fontFamily := "Arial"
    fontWeight := "normal"
    paddingPercent := 10
    lineHeightMultiplier := 13/10
    maxLines := 10 }

/-- The padded search context built by calculateOptimalFontSize:
padding = min(imageWidth, imageHeight) * paddingPercent / 100,
usable width/height = image dimension - 2 * padding. -/
def layoutCtx (text : List Char) (imageWidth imageHeight : ℚ) (opts : LayoutOptions) :
    SearchCtx :=
  let padding := min imageWidth imageHeight * (opts.paddingPercent / 100)
  { text := text
    maxTextWidth := imageWidth - padding * 2
    fontFamily := opts.fontFamily
    fontWeight := opts.fontWeight
    lineHeightMultiplier := opts.lineHeightMultiplier
    maxTextHeight := imageHeight - padding * 2
    maxLines := opts.maxLines }

/-- calculateOptimalFontSize: run the binary search from
[minFontSize, maxFontSize]; when it records no best, fall back to
minFontSize wrapped regardless of overflow. -/
def calculateOptimalFontSize (text : List Char) (imageWidth imageHeight : ℚ)
    (opts : LayoutOptions) : FontFitResult :=
  let ctx := layoutCtx text imageWidth imageHeight opts
  match fontSearch ctx opts.minFontSize opts.maxFontSize none with
  | some r => r
  | none =>
    { fontSize := opts.minFontSize
      wrappedLines := wrapText ctx.text ctx.maxTextWidth opts.minFontSize
        ctx.fontFamily ctx.fontWeight
      lineHeight := opts.minFontSize * opts.lineHeightMultiplier }

/-! ### Generic facts about the width estimator -/

/-- The estimated width factors as fontSize times a sum that does not
depend on the font size. -/
theorem estimateTextWidth_eq_mul (text : List Char) (fontSize : ℚ) (fontFamily fontWeight : String) :
    estimateTextWidth text fontSize fontFamily fontWeight =
      fontSize * (text.map (charMultiplier (weightMultiplier fontFamily fontWeight))).sum := by
  unfold estimateTextWidth
  exact List.sum_map_mul_left text (charMultiplier (weightMultiplier fontFamily fontWeight)) fontSize

theorem fontMetrics_nonneg (fontFamily : String) :
    0 ≤ (fontMetrics fontFamily).1 ∧ 0 ≤ (fontMetrics fontFamily).2 := by
  unfold fontMetrics
  split_ifs <;> constructor <;> norm_num

theorem weightMultiplier_nonneg (fontFamily fontWeight : String) :
    0 ≤ weightMultiplier fontFamily fontWeight := by
  unfold weightMultiplier
  split_ifs
  · exact (fontMetrics_nonneg fontFamily).2
  · exact (fontMetrics_nonneg fontFamily).1

theorem charMultiplier_nonneg {wm : ℚ} (h : 0 ≤ wm) (c : Char) : 0 ≤ charMultiplier wm c := by
  unfold charMultiplier
  split_ifs <;> first
    | exact h
    | exact mul_nonneg h (by norm_num)

theorem charSum_nonneg (text : List Char) (fontFamily fontWeight : String) :
    0 ≤ (text.map (charMultiplier (weightMultiplier fontFamily fontWeight))).sum := by
  apply List.sum_nonneg
  intro x hx
  obtain ⟨c, _, rfl⟩ := List.mem_map.mp hx
  exact charMultiplier_nonneg (weightMultiplier_nonneg fontFamily fontWeight) c

theorem estimateTextWidth_nonneg (text : List Char) {fontSize : ℚ} (h : 0 ≤ fontSize)
    (fontFamily fontWeight : String) : 0 ≤ estimateTextWidth text fontSize fontFamily fontWeight := by
  rw [estimateTextWidth_eq_mul]
  exact mul_nonneg h (charSum_nonneg text fontFamily fontWeight)

theorem estimateTextWidth_append (a b : List Char) (fontSize : ℚ) (fontFamily fontWeight : String) :
    estimateTextWidth (a ++ b) fontSize fontFamily fontWeight =
      estimateTextWidth a fontSize fontFamily fontWeight +
        estimateTextWidth b fontSize fontFamily fontWeight := by
  unfold estimateTextWidth
  rw [List.map_append, List.sum_append]

/-- C3: for fixed text, family and weight, estimateTextWidth is
monotonically non-decreasing in the font size: s1 < s2 implies
estimateTextWidth text s1 ≤ estimateTextWidth text s2. -/
theorem estimateTextWidth_mono (text : List Char) (fontFamily fontWeight : String)
    (s1 s2 : ℚ) (h : s1 < s2) :
    estimateTextWidth text s1 fontFamily fontWeight ≤
      estimateTextWidth text s2 fontFamily fontWeight := by
  rw [estimateTextWidth_eq_mul, estimateTextWidth_eq_mul]
  exact mul_le_mul_of_nonneg_right h.le (charSum_nonneg text fontFamily fontWeight)

/-- Witness for C3 at text "Hi", sizes 10 < 20, Arial normal. -/
theorem estimateTextWidth_mono_witness :
    (10 : ℚ) < 20 ∧
      estimateTextWidth ['H', 'i'] 10 "Arial" "normal" ≤
        estimateTextWidth ['H', 'i'] 20 "Arial" "normal" :=
  ⟨by norm_num, estimateTextWidth_mono ['H', 'i'] "Arial" "normal" 10 20 (by norm_num)⟩

/-! ### C7: the width formula -/

/-- Modelled from the spec (§4.1): the per-character-class correction
factor applied to the weight-selected base multiplier. -/
def classCorrection (c : Char) : ℚ :=
  if c = 'i' ∨ c = 'I' ∨ c = 'l' ∨ c = '1' then 4/10
  else if c = 'f' ∨ c = 'j' ∨ c = 't' ∨ c = 'J' then 5/10
  else if c = 'r' ∨ c = 'F' then 65/100
  else if c = 'm' ∨ c = 'w' ∨ c = 'M' ∨ c = 'W' then 15/10
  else if c = ' ' then 3/10
  else if c = '.' ∨ c = ',' ∨ c = ';' ∨ c = ':' ∨ c = '!' ∨ c = '|' then 35/100
  else 1

/-- Modelled from the spec (§4.1): width as the sum over the characters of
fontSize * (base multiplier * class correction). -/
def estimateTextWidthSpec (text : List Char) (fontSize : ℚ) (fontFamily fontWeight : String) : ℚ :=
  (text.map (fun c => fontSize * (weightMultiplier fontFamily fontWeight * classCorrection c))).sum

theorem charMultiplier_eq_classCorrection (wm : ℚ) (c : Char) :
    charMultiplier wm c = wm * classCorrection c := by
  unfold charMultiplier classCorrection
  simp only [List.mem_cons, List.mem_singleton, List.not_mem_nil, or_false]
  split_ifs <;> ring

/-- C7: estimateTextWidth is the sum over the text's characters of
fontSize * (weight-selected base multiplier * class correction), the class
corrections being 0.4, 0.5, 0.65, 1.5, 0.3, 0.35 and 1 for the documented
character classes; for a positive font size the result is non-negative. -/
theorem estimateTextWidth_formula (text : List Char) (fontSize : ℚ)
    (fontFamily fontWeight : String)
    (hw : fontWeight = "normal" ∨ fontWeight = "bold") (hs : 0 < fontSize) :
    estimateTextWidth text fontSize fontFamily fontWeight =
      estimateTextWidthSpec text fontSize fontFamily fontWeight ∧
    0 ≤ estimateTextWidth text fontSize fontFamily fontWeight := by
  constructor
  · unfold estimateTextWidth estimateTextWidthSpec
    congr 1
    apply List.map_congr_left
    intro c _
    rw [charMultiplier_eq_classCorrection]
  · exact estimateTextWidth_nonneg text hs.le fontFamily fontWeight

/-- Witness for C7 at text "Hi, m!", font size 32, Arial normal. -/
theorem estimateTextWidth_formula_witness :
    (("normal" : String) = "normal" ∨ ("normal" : String) = "bold") ∧ (0 : ℚ) < 32 ∧
      (estimateTextWidth ['H', 'i', ',', ' ', 'm', '!'] 32 "Arial" "normal" =
        estimateTextWidthSpec ['H', 'i', ',', ' ', 'm', '!'] 32 "Arial" "normal" ∧
      0 ≤ estimateTextWidth ['H', 'i', ',', ' ', 'm', '!'] 32 "Arial" "normal") :=
  ⟨Or.inl rfl, by norm_num,
    estimateTextWidth_formula ['H', 'i', ',', ' ', 'm', '!'] 32 "Arial" "normal"
      (Or.inl rfl) (by norm_num)⟩

/-! ### C1: the wrapped-lines width invariant fails on the code -/

unseal Rat.add Rat.mul Rat.sub Rat.inv Rat.ofScientific in
/-- C1 fails on the code: wrapping the text "x mmmm" at max width 20 and
font size 10 (Arial normal) produces the line "m- m- m" - the space-join
of the residual hyphen fragments of the broken word "mmmm" - whose
estimated width 36.92 exceeds the max width 20 even though it is not a
single atomic fragment (it contains spaces, and wrapping it again splits
it). The culprit is currentLine = brokenWords.slice(1).join(' ') in
wrapText, which rebuilds an over-wide line from fragments that
individually fit. -/
theorem wrapText_width_invariant_fails :
    wrapText ['x', ' ', 'm', 'm', 'm', 'm'] 20 10 "Arial" "normal" =
      [['x'], ['m', '-'], ['m', '-', ' ', 'm', '-', ' ', 'm']] ∧
    20 < estimateTextWidth ['m', '-', ' ', 'm', '-', ' ', 'm'] 10 "Arial" "normal" ∧
    ' ' ∈ ['m', '-', ' ', 'm', '-', ' ', 'm'] ∧
    wrapText ['m', '-', ' ', 'm', '-', ' ', 'm'] 20 10 "Arial" "normal" ≠
      [['m', '-', ' ', 'm', '-', ' ', 'm']] := by
  refine ⟨by decide, by decide, by decide, by decide⟩

/-! ### C10: the last fragment of a broken word -/

theorem getLast_cons_some {α : Type} (x : α) (l : List α) (y : α) (h : l.getLast? = some y) :
    (x :: l).getLast? = some y := by
  cases l with
  | nil => simp at h
  | cons a as =>
    rw [List.getLast?_cons_cons]
    exact h

theorem breakCore_last (mw fs : ℚ) (ff fw : String) :
    ∀ (w : List Char) (c : Char) (cp : List Char),
      (breakCore mw fs ff fw (w ++ [c]) cp).getLast? = some [c] := by
  intro w
  induction w with
  | nil =>
    intro c cp
    unfold breakCore
    simp only [List.nil_append, ne_eq, and_false, if_false, not_true_eq_false,
      List.cons_ne_self]
    by_cases hcp : cp = []
    · subst hcp
      simp [breakCore]
    · simp only [hcp, if_pos, if_neg]
      split
      · exact getLast_cons_some _ _ _ (by simp [breakCore])
      · simp [breakCore]
  | cons d w' ih =>
    intro c cp
    have hne : w' ++ [c] ≠ [] := by simp
    rw [List.cons_append]
    unfold breakCore
    simp only [hne, and_true]
    split
    · exact ih c (cp ++ [d])
    · split
      · exact getLast_cons_some _ _ _ (ih c [d])
      · exact getLast_cons_some _ _ _ (ih c [])

/-- C10: whenever breakLongWord returns at least two fragments, the last
fragment is exactly one character long, namely the final character of the
word (the loop guard i < word.length - 1 forces the final character to
close whatever fragment was being accumulated). -/
theorem breakLongWord_last_fragment (word : List Char) (mw fs : ℚ) (ff fw : String)
    (h2 : 2 ≤ (breakLongWord word mw fs ff fw).length) :
    ∃ c : Char, word.getLast? = some c ∧
      (breakLongWord word mw fs ff fw).getLast? = some [c] := by
  have hword : word ≠ [] := by
    intro he
    subst he
    unfold breakLongWord at h2
    split at h2 <;> simp [breakCore] at h2
  obtain ⟨c, hc⟩ : ∃ c, word.getLast? = some c := by
    cases word with
    | nil => exact absurd rfl hword
    | cons a as => exact ⟨(a :: as).getLast (by simp), List.getLast?_eq_getLast _ _⟩
  have hsplit : word.dropLast ++ [c] = word := by
    have h1 := List.dropLast_append_getLast hword
    have h2' : word.getLast hword = c := by
      have := List.getLast?_eq_getLast word hword
      rw [this] at hc
      exact (Option.some_inj.mp hc)
    rw [h2'] at h1
    exact h1
  refine ⟨c, hc, ?_⟩
  unfold breakLongWord at h2 ⊢
  split at h2
  · simp at h2
  · rw [if_neg (by assumption)]
    rw [← hsplit]
    exact breakCore_last mw fs ff fw word.dropLast c []

unseal Rat.add Rat.mul Rat.sub Rat.inv Rat.ofScientific in
/-- Witness for C10 at the word "mmmm", max width 20, font size 10. -/
theorem breakLongWord_last_fragment_witness :
    2 ≤ (breakLongWord ['m', 'm', 'm', 'm'] 20 10 "Arial" "normal").length ∧
      ∃ c : Char, (['m', 'm', 'm', 'm'] : List Char).getLast? = some c ∧
        (breakLongWord ['m', 'm', 'm', 'm'] 20 10 "Arial" "normal").getLast? = some [c] :=
  ⟨by decide, breakLongWord_last_fragment ['m', 'm', 'm', 'm'] 20 10 "Arial" "normal" (by decide)⟩

/-! ### C5: the long-word breaking walk -/

/-- Modelled from the spec (§4.2.1), exactly as the claim words it: walk
the word character by character, accumulating a fragment exactly while
fragment + nextChar + "-" stays within max width; on overflow close the
fragment with a trailing hyphen and restart from the overflowing
character; a single over-wide character is emitted alone; the final
fragment gets no trailing hyphen. -/
def breakWalkClaim (maxWidth fontSize : ℚ) (fontFamily fontWeight : String) :
    List Char → List Char → List (List Char)
  | [], currentPart => if currentPart ≠ [] then [currentPart] else []
  | c :: rest, currentPart =>
    if estimateTextWidth (currentPart ++ [c] ++ ['-']) fontSize fontFamily fontWeight ≤
        maxWidth then
      breakWalkClaim maxWidth fontSize fontFamily fontWeight rest (currentPart ++ [c])
    else
      if currentPart ≠ [] then
        (currentPart ++ ['-']) :: breakWalkClaim maxWidth fontSize fontFamily fontWeight rest [c]
      else
        [c] :: breakWalkClaim maxWidth fontSize fontFamily fontWeight rest []

unseal Rat.add Rat.mul Rat.sub Rat.inv Rat.ofScientific in
/-- C5 fails on the code: for the over-wide word "mmai" at max width 21
and font size 10 (Arial normal), the walk described by the claim would
merge "a" and "i" into a final fragment "ai" (since "ai-" still fits),
but the code closes the accumulating fragment as soon as the final
character is reached (the loop guard i < word.length - 1), producing
["mm-", "a-", "i"] instead of ["mm-", "ai"]. -/
theorem breakLongWord_claim_walk_fails :
    21 < estimateTextWidth ['m', 'm', 'a', 'i'] 10 "Arial" "normal" ∧
    breakLongWord ['m', 'm', 'a', 'i'] 21 10 "Arial" "normal" =
      [['m', 'm', '-'], ['a', '-'], ['i']] ∧
    breakWalkClaim 21 10 "Arial" "normal" ['m', 'm', 'a', 'i'] [] =
      [['m', 'm', '-'], ['a', 'i']] ∧
    breakLongWord ['m', 'm', 'a', 'i'] 21 10 "Arial" "normal" ≠
      breakWalkClaim 21 10 "Arial" "normal" ['m', 'm', 'a', 'i'] [] := by
  refine ⟨by decide, by decide, by decide, by decide⟩

/-- Modelled from the spec (§4.2.1), amended by the counterexample: the
walk accumulates a fragment while fragment + nextChar + "-" stays within
max width AND nextChar is not the word's final character; otherwise it
closes the fragment (with a trailing hyphen when nonempty, the single
character standing alone when even it is too wide), so the final fragment
is the last character alone and carries no hyphen. -/
def breakWalkAmended (maxWidth fontSize : ℚ) (fontFamily fontWeight : String) :
    List Char → List Char → List (List Char)
  | [], currentPart => if currentPart ≠ [] then [currentPart] else []
  | c :: rest, currentPart =>
    if estimateTextWidth (currentPart ++ [c] ++ ['-']) fontSize fontFamily fontWeight ≤
        maxWidth ∧ rest ≠ [] then
      breakWalkAmended maxWidth fontSize fontFamily fontWeight rest (currentPart ++ [c])
    else
      if currentPart ≠ [] then
        (currentPart ++ ['-']) ::
          breakWalkAmended maxWidth fontSize fontFamily fontWeight rest [c]
      else
        [c] :: breakWalkAmended maxWidth fontSize fontFamily fontWeight rest []

theorem breakCore_eq_walkAmended (mw fs : ℚ) (ff fw : String) :
    ∀ (w cp : List Char), breakCore mw fs ff fw w cp = breakWalkAmended mw fs ff fw w cp := by
  intro w
  induction w with
  | nil => intro cp; rfl
  | cons c rest ih =>
    intro cp
    unfold breakCore breakWalkAmended
    simp only [List.append_assoc, List.singleton_append]
    split
    · exact ih (cp ++ [c])
    · split
      · rw [ih [c]]
      · rw [ih []]

set_option maxRecDepth 10000 in
unseal Rat.add Rat.mul Rat.sub Rat.inv Rat.ofScientific in
/-- C5 amended: for every over-wide word, breakLongWord performs the
claimed character walk with one correction - the accumulation condition
also requires the next character not to be the word's final character, so
the final character always closes the pending fragment and ends up as the
last fragment on its own. In particular the 50-character word scenario at
max width 100 and font size 32 yields at least two fragments, every
fragment but the last ending in a hyphen. -/
theorem breakLongWord_walk_amended :
    (∀ (word : List Char) (mw fs : ℚ) (ff fw : String),
        mw < estimateTextWidth word fs ff fw →
        breakLongWord word mw fs ff fw = breakWalkAmended mw fs ff fw word []) ∧
    (2 ≤ (breakLongWord (List.replicate 50 'a') 100 32 "Arial" "normal").length ∧
      ∀ frag ∈ (breakLongWord (List.replicate 50 'a') 100 32 "Arial" "normal").dropLast,
        frag.getLast? = some '-') := by
  constructor
  · intro word mw fs ff fw hw
    unfold breakLongWord
    rw [if_neg (not_le.mpr hw)]
    exact breakCore_eq_walkAmended mw fs ff fw word []
  · exact ⟨by decide, by decide⟩

unseal Rat.add Rat.mul Rat.sub Rat.inv Rat.ofScientific in
/-- Witness for the amended C5 at the over-wide word "mmai". -/
theorem breakLongWord_walk_amended_witness :
    (21 : ℚ) < estimateTextWidth ['m', 'm', 'a', 'i'] 10 "Arial" "normal" ∧
    breakLongWord ['m', 'm', 'a', 'i'] 21 10 "Arial" "normal" =
      breakWalkAmended 21 10 "Arial" "normal" ['m', 'm', 'a', 'i'] [] :=
  ⟨by decide,
    breakLongWord_walk_amended.1 ['m', 'm', 'a', 'i'] 21 10 "Arial" "normal" (by decide)⟩

/-! ### C6: explicit newlines are hard breaks -/

theorem splitNl_ne_nil (s : List Char) : splitNl s ≠ [] := by
  cases s with
  | nil => simp [splitNl]
  | cons c rest =>
    unfold splitNl
    split
    · simp
    · split <;> simp

theorem splitNl_append (a b : List Char) :
    splitNl (a ++ '\n' :: b) = splitNl a ++ splitNl b := by
  induction a with
  | nil =>
    simp [splitNl]
  | cons c a' ih =>
    by_cases hc : c = '\n'
    · subst hc
      simp only [List.cons_append, splitNl, List.append_eq, if_true, eq_self_iff_true]
      rw [ih]
    · simp only [List.cons_append, splitNl, List.append_eq, if_neg hc]
      rw [ih]
      obtain ⟨p, ps, hps⟩ : ∃ p ps, splitNl a' = p :: ps := by
        cases hsa : splitNl a' with
        | nil => exact absurd hsa (splitNl_ne_nil a')
        | cons p ps => exact ⟨p, ps, rfl⟩
      rw [hps]
      simp

unseal Rat.add Rat.mul Rat.sub Rat.inv Rat.ofScientific in
/-- C6: every newline in the text is honored as a hard break - wrapping a
text around an embedded newline is wrapping the two sides separately and
concatenating (so no wrapped line ever spans a newline, and the empty
paragraph between two consecutive newlines contributes its own empty
output line in position). In particular "Line one\n\nLine three" wraps to
["Line one", "", "Line three"] (max width 1000, font size 10, Arial
normal). -/
theorem wrapText_hard_breaks :
    (∀ (a b : List Char) (mw fs : ℚ) (ff fw : String),
        wrapText (a ++ '\n' :: b) mw fs ff fw =
          wrapText a mw fs ff fw ++ wrapText b mw fs ff fw) ∧
    wrapText
        ['L', 'i', 'n', 'e', ' ', 'o', 'n', 'e', '\n', '\n',
         'L', 'i', 'n', 'e', ' ', 't', 'h', 'r', 'e', 'e'] 1000 10 "Arial" "normal" =
      [['L', 'i', 'n', 'e', ' ', 'o', 'n', 'e'], [],
       ['L', 'i', 'n', 'e', ' ', 't', 'h', 'r', 'e', 'e']] := by
  constructor
  · intro a b mw fs ff fw
    unfold wrapText
    rw [splitNl_append, List.append_bind]
  · decide

/-! ### The binary search: bounds and fallback -/

theorem round_half_bounds (x : ℚ) :
    x - 1/2 ≤ (round x : ℚ) ∧ (round x : ℚ) ≤ x + 1/2 := by
  have h := abs_sub_round x
  rw [abs_le] at h
  constructor <;> linarith [h.1, h.2]

theorem probe_between {low high : ℚ} (h : high - low > 1) :
    low < (round ((low + high) / 2) : ℚ) ∧ (round ((low + high) / 2) : ℚ) < high := by
  have hb := round_half_bounds ((low + high) / 2)
  constructor <;> linarith [hb.1, hb.2]

/-- Every result the binary search can return has its font size inside
any interval containing the initial [low, high] window. -/
theorem fontSearch_mem (ctx : SearchCtx) (lo hi : ℚ) :
    ∀ (low high : ℚ) (best : Option FontFitResult),
      lo ≤ low → high ≤ hi →
      (∀ r, best = some r → lo ≤ r.fontSize ∧ r.fontSize ≤ hi) →
      ∀ r, fontSearch ctx low high best = some r → lo ≤ r.fontSize ∧ r.fontSize ≤ hi := by
  intro low high best
  induction low, high, best using fontSearch.induct ctx with
  | case1 low high best h p lh wl fit ih =>
    intro hlo hhi hbest r hr
    rw [fontSearch, dif_pos h, if_pos fit] at hr
    have hp := probe_between h
    exact ih (le_of_lt (lt_of_le_of_lt hlo hp.1)) hhi
      (by
        intro r' hr'
        obtain rfl := (Option.some_inj.mp hr').symm
        exact ⟨le_of_lt (lt_of_le_of_lt hlo hp.1),
          le_of_lt (lt_of_lt_of_le hp.2 hhi)⟩) r hr
  | case2 low high best h p lh wl nofit ih =>
    intro hlo hhi hbest r hr
    rw [fontSearch, dif_pos h, if_neg nofit] at hr
    have hp := probe_between h
    exact ih hlo (by linarith [hp.2]) hbest r hr
  | case3 low high best h =>
    intro hlo hhi hbest r hr
    rw [fontSearch, dif_neg h] at hr
    exact hbest r hr

/-- C4: whenever minFontSize ≤ maxFontSize, the font size returned by
calculateOptimalFontSize lies in [minFontSize, maxFontSize], both when
the binary search records a best and in the minFontSize fallback. -/
theorem calculateOptimalFontSize_within_bounds (text : List Char) (imageWidth imageHeight : ℚ)
    (opts : LayoutOptions) (hmm : opts.minFontSize ≤ opts.maxFontSize) :
    opts.minFontSize ≤ (calculateOptimalFontSize text imageWidth imageHeight opts).fontSize ∧
      (calculateOptimalFontSize text imageWidth imageHeight opts).fontSize ≤
        opts.maxFontSize := by
  unfold calculateOptimalFontSize
  dsimp only
  cases hres : fontSearch (layoutCtx text imageWidth imageHeight opts)
      opts.minFontSize opts.maxFontSize none with
  | some r =>
    exact fontSearch_mem (layoutCtx text imageWidth imageHeight opts)
      opts.minFontSize opts.maxFontSize opts.minFontSize opts.maxFontSize none
      le_rfl le_rfl (by intro r' hr'; cases hr') r hres
  | none =>
    exact ⟨le_rfl, hmm⟩

/-- Witness for C4: a concrete invocation with minFontSize 12 ≤
maxFontSize 100 whose result size lies in [12, 100]. -/
theorem calculateOptimalFontSize_within_bounds_witness :
    ((⟨100, 12, "Arial", "normal", 10, 13/10, 10⟩ : LayoutOptions).minFontSize ≤
        (⟨100, 12, "Arial", "normal", 10, 13/10, 10⟩ : LayoutOptions).maxFontSize) ∧
      ((⟨100, 12, "Arial", "normal", 10, 13/10, 10⟩ : LayoutOptions).minFontSize ≤
          (calculateOptimalFontSize ['a'] 800 600
            ⟨100, 12, "Arial", "normal", 10, 13/10, 10⟩).fontSize ∧
        (calculateOptimalFontSize ['a'] 800 600
            ⟨100, 12, "Arial", "normal", 10, 13/10, 10⟩).fontSize ≤
          (⟨100, 12, "Arial", "normal", 10, 13/10, 10⟩ : LayoutOptions).maxFontSize) :=
  ⟨by norm_num,
    calculateOptimalFontSize_within_bounds ['a'] 800 600
      ⟨100, 12, "Arial", "normal", 10, 13/10, 10⟩ (by norm_num)⟩

/-- If every integer size strictly between low and high fails the fit
test, the binary search records no best: every probe lies strictly
between the current bounds, which only tighten. -/
theorem fontSearch_none (ctx : SearchCtx) :
    ∀ (low high : ℚ) (best : Option FontFitResult),
      best = none →
      (∀ s : ℤ, low < (s:ℚ) → (s:ℚ) < high → ¬ fitsCtx ctx (s:ℚ)) →
      fontSearch ctx low high best = none := by
  intro low high best
  induction low, high, best using fontSearch.induct ctx with
  | case1 low high best h p lh wl fit ih =>
    intro hb hno
    have hp := probe_between h
    exact absurd (show fitsCtx ctx (p : ℚ) from fit) (hno p hp.1 hp.2)
  | case2 low high best h p lh wl nofit ih =>
    intro hb hno
    have hp := probe_between h
    rw [fontSearch, dif_pos h, if_neg nofit]
    exact ih hb (by
      intro s h1 h2
      exact hno s h1 (by linarith [hp.2]))
  | case3 low high best h =>
    intro hb hno
    rw [fontSearch, dif_neg h]
    exact hb

/-- The fit test of the binary search, phrased against the padded box of
calculateOptimalFontSize. -/
def fitsOpt (text : List Char) (imageWidth imageHeight : ℚ) (opts : LayoutOptions) (s : ℚ) :
    Prop :=
  fitsCtx (layoutCtx text imageWidth imageHeight opts) s

/-- The minFontSize fallback record of calculateOptimalFontSize. -/
def fallbackResult (text : List Char) (imageWidth imageHeight : ℚ) (opts : LayoutOptions) :
    FontFitResult :=
  { fontSize := opts.minFontSize
    wrappedLines := wrapText text (layoutCtx text imageWidth imageHeight opts).maxTextWidth
      opts.minFontSize opts.fontFamily opts.fontWeight
    lineHeight := opts.minFontSize * opts.lineHeightMultiplier }

/-- C8: when no size the search can probe fits (all integer sizes
strictly inside (minFontSize, maxFontSize) fail the fit test), the
solver returns exactly minFontSize with the text wrapped at minFontSize,
overflow notwithstanding; the same fallback is returned for degenerate
inverted bounds (maxFontSize < minFontSize), and being a total function
the solver returns a result on every input. -/
theorem calculateOptimalFontSize_fallback (text : List Char) (imageWidth imageHeight : ℚ)
    (opts : LayoutOptions) :
    ((∀ s : ℤ, opts.minFontSize < (s:ℚ) → (s:ℚ) < opts.maxFontSize →
        ¬ fitsOpt text imageWidth imageHeight opts (s:ℚ)) →
      calculateOptimalFontSize text imageWidth imageHeight opts =
        fallbackResult text imageWidth imageHeight opts) ∧
    (opts.maxFontSize < opts.minFontSize →
      calculateOptimalFontSize text imageWidth imageHeight opts =
        fallbackResult text imageWidth imageHeight opts) := by
  constructor
  · intro hno
    have hn := fontSearch_none (layoutCtx text imageWidth imageHeight opts)
      opts.minFontSize opts.maxFontSize none rfl hno
    unfold calculateOptimalFontSize
    dsimp only
    rw [hn]
    rfl
  · intro hinv
    have hn : fontSearch (layoutCtx text imageWidth imageHeight opts)
        opts.minFontSize opts.maxFontSize none = none := by
      rw [fontSearch, dif_neg (by linarith)]
    unfold calculateOptimalFontSize
    dsimp only
    rw [hn]
    rfl

/-- Witness for C8: inverted bounds minFontSize 50 > maxFontSize 10
still produce the minFontSize fallback result. -/
theorem calculateOptimalFontSize_fallback_witness :
    ((⟨10, 50, "Arial", "normal", 10, 13/10, 10⟩ : LayoutOptions).maxFontSize <
        (⟨10, 50, "Arial", "normal", 10, 13/10, 10⟩ : LayoutOptions).minFontSize) ∧
      calculateOptimalFontSize ['a'] 100 100 ⟨10, 50, "Arial", "normal", 10, 13/10, 10⟩ =
        fallbackResult ['a'] 100 100 ⟨10, 50, "Arial", "normal", 10, 13/10, 10⟩ :=
  ⟨by norm_num,
    (calculateOptimalFontSize_fallback ['a'] 100 100
      ⟨10, 50, "Arial", "normal", 10, 13/10, 10⟩).2 (by norm_num)⟩

/-! ### C2: the returned size is not always the largest fitting one -/

instance (text : List Char) (imageWidth imageHeight s : ℚ) (opts : LayoutOptions) :
    Decidable (fitsOpt text imageWidth imageHeight opts s) := by
  unfold fitsOpt
  infer_instance

theorem fontSearch_step_fit (ctx : SearchCtx) (low high : ℚ) (best : Option FontFitResult)
    (h : high - low > 1) (p : ℤ) (hp : round ((low + high) / 2) = p)
    (hfit : ((wrapText ctx.text ctx.maxTextWidth (p : ℚ) ctx.fontFamily ctx.fontWeight).length :
        ℚ) * ((p : ℚ) * ctx.lineHeightMultiplier) ≤ ctx.maxTextHeight ∧
      ((wrapText ctx.text ctx.maxTextWidth (p : ℚ) ctx.fontFamily ctx.fontWeight).length : ℚ) ≤
        ctx.maxLines) :
    fontSearch ctx low high best =
      fontSearch ctx (p : ℚ) high
        (some ⟨(p : ℚ),
          wrapText ctx.text ctx.maxTextWidth (p : ℚ) ctx.fontFamily ctx.fontWeight,
          (p : ℚ) * ctx.lineHeightMultiplier⟩) := by
  rw [fontSearch, dif_pos h]
  rw [hp]
  rw [if_pos hfit]

theorem fontSearch_step_nofit (ctx : SearchCtx) (low high : ℚ) (best : Option FontFitResult)
    (h : high - low > 1) (p : ℤ) (hp : round ((low + high) / 2) = p)
    (hnofit : ¬ (((wrapText ctx.text ctx.maxTextWidth (p : ℚ) ctx.fontFamily
        ctx.fontWeight).length : ℚ) * ((p : ℚ) * ctx.lineHeightMultiplier) ≤
          ctx.maxTextHeight ∧
      ((wrapText ctx.text ctx.maxTextWidth (p : ℚ) ctx.fontFamily ctx.fontWeight).length : ℚ) ≤
        ctx.maxLines)) :
    fontSearch ctx low high best = fontSearch ctx low ((p : ℚ) - 1) best := by
  rw [fontSearch, dif_pos h]
  rw [hp]
  rw [if_neg hnofit]

theorem fontSearch_stop (ctx : SearchCtx) (low high : ℚ) (best : Option FontFitResult)
    (h : ¬ high - low > 1) : fontSearch ctx low high best = best := by
  rw [fontSearch, dif_neg h]

unseal Rat.add Rat.mul Rat.sub Rat.inv Rat.ofScientific in
/-- C2 fails on the code: with text "a", box 800x600 and bounds
[12, 100], every size up to 369 satisfies the fit test - in particular
100, the largest size in range - yet the binary search returns 99: the
loop exits when high - low ≤ 1 and Math.round((low + high) / 2) can never
probe high itself, so maxFontSize is never tried. -/
theorem calculateOptimalFontSize_not_largest :
    (calculateOptimalFontSize ['a'] 800 600
        ⟨100, 12, "Arial", "normal", 10, 13/10, 10⟩).fontSize = 99 ∧
    fitsOpt ['a'] 800 600 ⟨100, 12, "Arial", "normal", 10, 13/10, 10⟩ 100 ∧ (99 : ℚ) < 100 := by
  have hsearch :
      fontSearch (layoutCtx ['a'] 800 600 ⟨100, 12, "Arial", "normal", 10, 13/10, 10⟩)
        12 100 none =
      some ⟨((99 : ℤ) : ℚ),
        wrapText ['a'] 680 ((99 : ℤ) : ℚ) "Arial" "normal",
        ((99 : ℤ) : ℚ) * (13/10)⟩ := by
    rw [fontSearch_step_fit _ _ _ _ (by norm_num) 56 (by decide) (by decide)]
    rw [fontSearch_step_fit _ _ _ _ (by norm_num) 78 (by decide) (by decide)]
    rw [fontSearch_step_fit _ _ _ _ (by norm_num) 89 (by decide) (by decide)]
    rw [fontSearch_step_fit _ _ _ _ (by norm_num) 95 (by decide) (by decide)]
    rw [fontSearch_step_fit _ _ _ _ (by norm_num) 98 (by decide) (by decide)]
    rw [fontSearch_step_fit _ _ _ _ (by norm_num) 99 (by decide) (by decide)]
    rw [fontSearch_stop _ _ _ _ (by norm_num)]
    decide
  refine ⟨?_, by decide, by norm_num⟩
  unfold calculateOptimalFontSize
  dsimp only
  rw [hsearch]
  decide

/-- The binary-search invariant: with integer bounds, a downward-monotone
fit test and a fitting size sStar in range, the search (or the fallback
that follows it) delivers a fitting size at least sStar - 1: the recorded
best always equals the integer low, and every fitting size stays ≤ high,
a window that shrinks to width ≤ 1. -/
theorem fontSearch_spec (ctx : SearchCtx) (m M : ℤ)
    (hmono : ∀ s t : ℤ, m ≤ s → s ≤ t → t ≤ M → fitsCtx ctx (t : ℚ) → fitsCtx ctx (s : ℚ))
    (sStar : ℤ) (hsm : m ≤ sStar) (hsM : sStar ≤ M) (hsfit : fitsCtx ctx (sStar : ℚ)) :
    ∀ (low high : ℚ) (best : Option FontFitResult), ∀ (l h : ℤ),
      low = (l : ℚ) → high = (h : ℚ) → m ≤ l → l ≤ h → h ≤ M →
      ((best = none ∧ l = m) ∨
        (∃ r, best = some r ∧ r.fontSize = (l : ℚ) ∧ fitsCtx ctx ((l : ℤ) : ℚ))) →
      (∀ t : ℤ, m ≤ t → t ≤ M → fitsCtx ctx (t : ℚ) → t ≤ h) →
      (match fontSearch ctx low high best with
        | some r => ∃ ri : ℤ, r.fontSize = (ri : ℚ) ∧ fitsCtx ctx (ri : ℚ) ∧
            sStar ≤ ri + 1 ∧ m ≤ ri ∧ ri ≤ M
        | none => l = m ∧ sStar ≤ m + 1) := by
  intro low high best
  induction low, high, best using fontSearch.induct ctx with
  | case1 low high best hgap p lh wl fit ih =>
    intro l h hl hh hml hlh hhM hbest hhigh
    have hpq := probe_between hgap
    have hlp : l < p := by
      have h1 : (l : ℚ) < (p : ℚ) := hl ▸ (show low < (p : ℚ) from hpq.1)
      exact_mod_cast h1
    have hph : p < h := by
      have h1 : (p : ℚ) < (h : ℚ) := hh ▸ (show (p : ℚ) < high from hpq.2)
      exact_mod_cast h1
    rw [fontSearch, dif_pos hgap, if_pos fit]
    have key := ih p h rfl hh (by omega) (by omega) hhM
      (Or.inr ⟨_, rfl, rfl, show fitsCtx ctx ((p : ℤ) : ℚ) from fit⟩) hhigh
    show (match fontSearch ctx ((p : ℤ) : ℚ) high
        (some ⟨((p : ℤ) : ℚ), wl, lh⟩) with
      | some r => ∃ ri : ℤ, r.fontSize = (ri : ℚ) ∧ fitsCtx ctx (ri : ℚ) ∧
          sStar ≤ ri + 1 ∧ m ≤ ri ∧ ri ≤ M
      | none => l = m ∧ sStar ≤ m + 1)
    cases hres : fontSearch ctx ((p : ℤ) : ℚ) high (some ⟨((p : ℤ) : ℚ), wl, lh⟩) with
    | some r =>
      rw [hres] at key
      exact key
    | none =>
      rw [hres] at key
      omega
  | case2 low high best hgap p lh wl nofit ih =>
    intro l h hl hh hml hlh hhM hbest hhigh
    have hpq := probe_between hgap
    have hlp : l < p := by
      have h1 : (l : ℚ) < (p : ℚ) := hl ▸ (show low < (p : ℚ) from hpq.1)
      exact_mod_cast h1
    have hph : p < h := by
      have h1 : (p : ℚ) < (h : ℚ) := hh ▸ (show (p : ℚ) < high from hpq.2)
      exact_mod_cast h1
    rw [fontSearch, dif_pos hgap, if_neg nofit]
    have hcast : ((p : ℚ) - 1) = (((p - 1 : ℤ)) : ℚ) := by push_cast; ring
    exact ih l (p - 1) hl hcast hml (by omega) (by omega) hbest
      (by
        intro t ht1 ht2 htfit
        by_contra hc
        push_neg at hc
        have hpt : p ≤ t := by omega
        exact nofit (show _ from hmono p t (by omega) hpt ht2 htfit))
  | case3 low high best hgap =>
    intro l h hl hh hml hlh hhM hbest hhigh
    have hwin : h ≤ l + 1 := by
      have h1 : (h : ℚ) ≤ (l : ℚ) + 1 := by
        rw [← hl, ← hh]
        have := le_of_not_lt hgap
        linarith
      exact_mod_cast h1
    rw [fontSearch, dif_neg hgap]
    rcases hbest with ⟨hb, hlm⟩ | ⟨r, hb, hfs, hfit⟩
    · subst hb
      exact ⟨hlm, by
        have := hhigh sStar hsm hsM hsfit
        omega⟩
    · subst hb
      exact ⟨l, hfs, hfit, by
        have := hhigh sStar hsm hsM hsfit
        omega, hml, by omega⟩

/-- C2 amended: for integer bounds minFontSize = m ≤ M = maxFontSize, if
the fit test is downward monotone on [m, M] and some integer size in
[m, M] fits, then calculateOptimalFontSize returns an integer font size
that fits, lies in [m, M], and is at least sStar - 1 for every fitting
sStar - i.e. at most one below the largest fitting size. (It can be
exactly one below: the search never probes maxFontSize itself, as the
counterexample shows, so largest-fitting cannot be guaranteed.) -/
theorem calculateOptimalFontSize_near_largest (text : List Char)
    (imageWidth imageHeight : ℚ) (opts : LayoutOptions) (m M : ℤ)
    (hm : opts.minFontSize = (m : ℚ)) (hM : opts.maxFontSize = (M : ℚ)) (hmM : m ≤ M)
    (hmono : ∀ s t : ℤ, m ≤ s → s ≤ t → t ≤ M →
      fitsOpt text imageWidth imageHeight opts (t : ℚ) →
      fitsOpt text imageWidth imageHeight opts (s : ℚ))
    (sStar : ℤ) (hs1 : m ≤ sStar) (hs2 : sStar ≤ M)
    (hsfit : fitsOpt text imageWidth imageHeight opts (sStar : ℚ)) :
    ∃ r : ℤ, (calculateOptimalFontSize text imageWidth imageHeight opts).fontSize = (r : ℚ) ∧
      fitsOpt text imageWidth imageHeight opts (r : ℚ) ∧ sStar ≤ r + 1 ∧ m ≤ r ∧ r ≤ M := by
  have hspec := fontSearch_spec (layoutCtx text imageWidth imageHeight opts) m M hmono
    sStar hs1 hs2 hsfit opts.minFontSize opts.maxFontSize none m M hm hM le_rfl
    (by exact_mod_cast hmM) le_rfl (Or.inl ⟨rfl, rfl⟩)
    (fun t _ ht2 _ => ht2)
  unfold calculateOptimalFontSize
  dsimp only
  cases hres : fontSearch (layoutCtx text imageWidth imageHeight opts)
      opts.minFontSize opts.maxFontSize none with
  | some r =>
    rw [hres] at hspec
    exact hspec
  | none =>
    rw [hres] at hspec
    exact ⟨m, hm, hmono m sStar le_rfl hs1 hs2 hsfit, hspec.2, le_rfl, hmM⟩

theorem processWord_single_a (mw fs : ℚ) (ff fw : String) :
    processWord mw fs ff fw ⟨[], []⟩ ['a'] = ⟨[], ['a']⟩ := by
  unfold processWord
  dsimp only
  rw [if_pos rfl]
  by_cases hfit : estimateTextWidth ['a'] fs ff fw ≤ mw
  · rw [if_pos hfit]
  · rw [if_neg hfit]
    rw [if_neg (by simp)]
    unfold breakLongWord
    rw [if_neg hfit]
    rw [show breakCore mw fs ff fw ['a'] [] = [['a']] from by
      unfold breakCore
      rw [if_neg (by simp)]
      rw [if_neg (by simp)]
      simp [breakCore]]
    rfl

theorem wrapText_single_a (mw fs : ℚ) (ff fw : String) :
    wrapText ['a'] mw fs ff fw = [['a']] := by
  unfold wrapText
  rw [show splitNl ['a'] = [['a']] from rfl]
  simp only [List.flatMap_cons, List.flatMap_nil, List.append_nil]
  unfold processParagraph
  rw [if_neg (by decide)]
  rw [show splitWs ['a'] = [['a']] from rfl]
  simp only [List.foldl_cons, List.foldl_nil]
  rw [processWord_single_a]
  rw [if_pos (by simp)]
  simp

theorem fitsOpt_single_a (s : ℚ) :
    fitsOpt ['a'] 800 600 ⟨100, 12, "Arial", "normal", 10, 13/10, 10⟩ s ↔
      s * (13/10) ≤ 480 := by
  unfold fitsOpt fitsCtx layoutCtx
  dsimp only
  rw [wrapText_single_a]
  norm_num

theorem fitsOpt_single_a_mono (s t : ℤ) (hs : (12:ℤ) ≤ s) (hst : s ≤ t) (ht : t ≤ (100:ℤ))
    (hfit : fitsOpt ['a'] 800 600 ⟨100, 12, "Arial", "normal", 10, 13/10, 10⟩ (t : ℚ)) :
    fitsOpt ['a'] 800 600 ⟨100, 12, "Arial", "normal", 10, 13/10, 10⟩ (s : ℚ) := by
  rw [fitsOpt_single_a] at *
  have hc : (s : ℚ) ≤ (t : ℚ) := by exact_mod_cast hst
  nlinarith [hfit, hc]

unseal Rat.add Rat.mul Rat.sub Rat.inv Rat.ofScientific in
/-- Witness for the amended C2 at text "a", box 800x600, bounds [12, 100]. -/
theorem calculateOptimalFontSize_near_largest_witness :
    ∃ r : ℤ, (calculateOptimalFontSize ['a'] 800 600
        ⟨100, 12, "Arial", "normal", 10, 13/10, 10⟩).fontSize = (r : ℚ) ∧
      fitsOpt ['a'] 800 600 ⟨100, 12, "Arial", "normal", 10, 13/10, 10⟩ (r : ℚ) ∧
      100 ≤ r + 1 ∧ 12 ≤ r ∧ r ≤ 100 :=
  calculateOptimalFontSize_near_largest ['a'] 800 600
    ⟨100, 12, "Arial", "normal", 10, 13/10, 10⟩ 12 100 (by norm_num) (by norm_num)
    (by norm_num) fitsOpt_single_a_mono 100 (by norm_num) (by norm_num)
    (by rw [fitsOpt_single_a]; norm_num)

/-! ### C9: idempotence of wrapping on fitting output lines -/

/-- A word as produced by splitting on whitespace: nonempty and free of
whitespace characters. -/
def Wordish (w : List Char) : Prop := w ≠ [] ∧ ∀ c ∈ w, isJsWs c = false

/-- The shape of every line wrapText can emit: empty, or a single-space
join of words, possibly with one trailing space (which arises when a
paragraph ends in whitespace). -/
def GoodLine (L : List Char) : Prop :=
  L = [] ∨ ∃ ws tail, (∀ w ∈ ws, Wordish w) ∧ ws ≠ [] ∧
    (tail = [] ∨ tail = [' ']) ∧ L = joinWords ws ++ tail

/-- A currentLine mid-paragraph: empty or a join of words with no
trailing space. -/
def NiceCl (cl : List Char) : Prop :=
  cl = [] ∨ ∃ ws, (∀ w ∈ ws, Wordish w) ∧ ws ≠ [] ∧ cl = joinWords ws

theorem niceCl_goodLine {cl : List Char} (h : NiceCl cl) : GoodLine cl := by
  rcases h with h | ⟨ws, h1, h2, h3⟩
  · exact Or.inl h
  · exact Or.inr ⟨ws, [], h1, h2, Or.inl rfl, by rw [h3, List.append_nil]⟩

theorem joinWords_cons (w : List Char) (ws : List (List Char)) (h : ws ≠ []) :
    joinWords (w :: ws) = w ++ ' ' :: joinWords ws := by
  cases ws with
  | nil => exact absurd rfl h
  | cons a as => rfl

theorem joinWords_snoc (ws : List (List Char)) (h : ws ≠ []) (r : List Char) :
    joinWords (ws ++ [r]) = joinWords ws ++ ' ' :: r := by
  induction ws with
  | nil => exact absurd rfl h
  | cons w ws ih =>
    cases ws with
    | nil => rfl
    | cons a as =>
      rw [List.cons_append, joinWords_cons w ((a :: as) ++ [r]) (by simp),
        joinWords_cons w (a :: as) (by simp), ih (by simp)]
      simp

theorem joinWords_ne_nil {ws : List (List Char)} (h : ws ≠ [])
    (hw : ∀ w ∈ ws, Wordish w) : joinWords ws ≠ [] := by
  cases ws with
  | nil => exact absurd rfl h
  | cons w ws =>
    cases ws with
    | nil => exact (hw w (by simp)).1
    | cons a as =>
      rw [joinWords_cons w (a :: as) (by simp)]
      simp

theorem mem_joinWords {c : Char} : ∀ {ws : List (List Char)},
    c ∈ joinWords ws → c = ' ' ∨ ∃ w ∈ ws, c ∈ w := by
  intro ws
  induction ws with
  | nil => intro h; simp [joinWords] at h
  | cons w ws ih =>
    intro h
    cases ws with
    | nil =>
      exact Or.inr ⟨w, by simp, by simpa [joinWords] using h⟩
    | cons a as =>
      rw [joinWords_cons w (a :: as) (by simp)] at h
      rcases List.mem_append.mp h with h1 | h2
      · exact Or.inr ⟨w, by simp, h1⟩
      · rcases List.mem_cons.mp h2 with h3 | h4
        · exact Or.inl h3
        · rcases ih h4 with h5 | ⟨x, hx1, hx2⟩
          · exact Or.inl h5
          · exact Or.inr ⟨x, by simp [hx1], hx2⟩

theorem splitNl_no_newline : ∀ (s : List Char), (∀ c ∈ s, c ≠ '\n') → splitNl s = [s] := by
  intro s
  induction s with
  | nil => intro _; rfl
  | cons c rest ih =>
    intro h
    unfold splitNl
    rw [if_neg (h c (by simp))]
    rw [ih (fun d hd => h d (by simp [hd]))]

/-- Every word splitWsAux emits is free of whitespace characters. -/
theorem splitWsAux_wsfree : ∀ (s : List Char) (mode : Bool) (acc : List Char),
    (∀ c ∈ acc, isJsWs c = false) →
    ∀ w ∈ splitWsAux mode s acc, ∀ c ∈ w, isJsWs c = false := by
  intro s
  induction s with
  | nil =>
    intro mode acc hacc w hw
    cases mode with
    | false =>
      simp only [splitWsAux, List.mem_singleton] at hw
      subst hw
      intro c hc
      exact hacc c (List.mem_reverse.mp hc)
    | true =>
      simp only [splitWsAux, List.mem_singleton] at hw
      subst hw
      simp
  | cons c rest ih =>
    intro mode acc hacc w hw
    cases mode with
    | false =>
      rw [show splitWsAux false (c :: rest) acc =
          (if isJsWs c then acc.reverse :: splitWsAux true rest []
           else splitWsAux false rest (c :: acc)) from rfl] at hw
      by_cases hc : isJsWs c
      · rw [if_pos hc] at hw
        rcases List.mem_cons.mp hw with h1 | h2
        · subst h1
          intro d hd
          exact hacc d (List.mem_reverse.mp hd)
        · exact ih true [] (by simp) w h2
      · rw [if_neg hc] at hw
        refine ih false (c :: acc) ?_ w hw
        intro d hd
        rcases List.mem_cons.mp hd with h1 | h2
        · subst h1; exact Bool.eq_false_iff.mpr hc
        · exact hacc d h2
    | true =>
      rw [show splitWsAux true (c :: rest) acc =
          (if isJsWs c then splitWsAux true rest acc
           else splitWsAux false rest [c]) from rfl] at hw
      by_cases hc : isJsWs c
      · rw [if_pos hc] at hw
        exact ih true acc hacc w hw
      · rw [if_neg hc] at hw
        refine ih false [c] ?_ w hw
        intro d hd
        rcases List.mem_cons.mp hd with h1 | h2
        · subst h1; exact Bool.eq_false_iff.mpr hc
        · simp at h2

/-- The shape of a whitespace split: in accumulate mode the first word
extends the accumulator and all later words are nonempty except possibly
a final empty one; in skip mode all words are nonempty except possibly a
final empty one. -/
theorem splitWsAux_shape : ∀ (s : List Char) (mode : Bool) (acc : List Char),
    ∃ (mids trail : List (List Char)),
      (∀ x ∈ mids, x ≠ []) ∧ (trail = [] ∨ trail = [[]]) ∧
      (if mode then splitWsAux true s acc = mids ++ trail
       else ∃ w, splitWsAux false s acc = (acc.reverse ++ w) :: (mids ++ trail)) := by
  intro s
  induction s with
  | nil =>
    intro mode acc
    cases mode with
    | false =>
      exact ⟨[], [], by simp, Or.inl rfl, ⟨[], by simp [splitWsAux]⟩⟩
    | true =>
      exact ⟨[], [[]], by simp, Or.inr rfl, by simp [splitWsAux]⟩
  | cons c rest ih =>
    intro mode acc
    cases mode with
    | false =>
      by_cases hc : isJsWs c
      · obtain ⟨mids, trail, h1, h2, h3⟩ := ih true []
        simp only [if_pos trivial] at h3
        refine ⟨mids, trail, h1, h2, ⟨[], ?_⟩⟩
        rw [show splitWsAux false (c :: rest) acc =
            (if isJsWs c then acc.reverse :: splitWsAux true rest []
             else splitWsAux false rest (c :: acc)) from rfl]
        rw [if_pos hc, h3]
        simp
      · obtain ⟨mids, trail, h1, h2, h3⟩ := ih false (c :: acc)
        rw [if_neg (by simp)] at h3
        obtain ⟨w, hw⟩ := h3
        refine ⟨mids, trail, h1, h2, ⟨[c] ++ w, ?_⟩⟩
        rw [show splitWsAux false (c :: rest) acc =
            (if isJsWs c then acc.reverse :: splitWsAux true rest []
             else splitWsAux false rest (c :: acc)) from rfl]
        rw [if_neg hc, hw]
        simp
    | true =>
      by_cases hc : isJsWs c
      · obtain ⟨mids, trail, h1, h2, h3⟩ := ih true acc
        simp only [if_pos trivial] at h3
        refine ⟨mids, trail, h1, h2, ?_⟩
        simp only [if_pos trivial]
        rw [show splitWsAux true (c :: rest) acc =
            (if isJsWs c then splitWsAux true rest acc
             else splitWsAux false rest [c]) from rfl]
        rw [if_pos hc, h3]
      · obtain ⟨mids, trail, h1, h2, h3⟩ := ih false [c]
        rw [if_neg (by simp)] at h3
        obtain ⟨w, hw⟩ := h3
        refine ⟨([c] ++ w) :: mids, trail, ?_, h2, ?_⟩
        · intro x hx
          rcases List.mem_cons.mp hx with h4 | h5
          · subst h4; simp
          · exact h1 x h5
        · simp only [if_pos trivial]
          rw [show splitWsAux true (c :: rest) acc =
              (if isJsWs c then splitWsAux true rest acc
               else splitWsAux false rest [c]) from rfl]
          rw [if_neg hc, hw]
          simp

theorem splitWsAux_false_step (c : Char) (s acc : List Char) :
    splitWsAux false (c :: s) acc =
      if isJsWs c then acc.reverse :: splitWsAux true s [] else splitWsAux false s (c :: acc) :=
  rfl

theorem splitWsAux_true_step (c : Char) (s acc : List Char) :
    splitWsAux true (c :: s) acc =
      if isJsWs c then splitWsAux true s acc else splitWsAux false s [c] :=
  rfl

theorem splitWsAux_consume : ∀ (w : List Char), (∀ c ∈ w, isJsWs c = false) →
    ∀ (s acc : List Char), splitWsAux false (w ++ s) acc = splitWsAux false s (w.reverse ++ acc) := by
  intro w
  induction w with
  | nil => intro _ s acc; simp
  | cons c w' ih =>
    intro hw s acc
    rw [List.cons_append]
    rw [show splitWsAux false (c :: (w' ++ s)) acc =
        (if isJsWs c then acc.reverse :: splitWsAux true (w' ++ s) []
         else splitWsAux false (w' ++ s) (c :: acc)) from rfl]
    rw [if_neg (by rw [hw c (by simp)]; simp)]
    rw [ih (fun d hd => hw d (by simp [hd])) s (c :: acc)]
    simp

theorem splitWsAux_true_eq_false (c : Char) (s acc : List Char) (hc : isJsWs c = false) :
    splitWsAux true (c :: s) acc = splitWsAux false (c :: s) [] := by
  rw [show splitWsAux true (c :: s) acc =
      (if isJsWs c then splitWsAux true s acc else splitWsAux false s [c]) from rfl]
  rw [show splitWsAux false (c :: s) [] =
      (if isJsWs c then ([] : List Char).reverse :: splitWsAux true s []
       else splitWsAux false s [c]) from rfl]
  rw [if_neg (by rw [hc]; simp), if_neg (by rw [hc]; simp)]

theorem joinWords_head (a : List Char) (as : List (List Char)) (ha : a ≠ []) :
    ∃ c s', joinWords (a :: as) = c :: s' ∧ c ∈ a := by
  cases a with
  | nil => exact absurd rfl ha
  | cons c a' =>
    cases as with
    | nil => exact ⟨c, a', rfl, by simp⟩
    | cons b bs =>
      rw [joinWords_cons (c :: a') (b :: bs) (by simp)]
      exact ⟨c, a' ++ ' ' :: joinWords (b :: bs), by simp, by simp⟩

theorem splitWs_join : ∀ (ws : List (List Char)), (∀ w ∈ ws, Wordish w) → ws ≠ [] →
    splitWs (joinWords ws) = ws := by
  intro ws
  induction ws with
  | nil => intro _ h; exact absurd rfl h
  | cons w ws ih =>
    intro hw _
    cases ws with
    | nil =>
      show splitWsAux false (joinWords [w]) [] = [w]
      have : joinWords [w] = w ++ [] := by simp [joinWords]
      rw [this, splitWsAux_consume w (hw w (by simp)).2 [] []]
      simp [splitWsAux]
    | cons a as =>
      show splitWsAux false (joinWords (w :: a :: as)) [] = w :: a :: as
      rw [joinWords_cons w (a :: as) (by simp)]
      rw [splitWsAux_consume w (hw w (by simp)).2 (' ' :: joinWords (a :: as)) []]
      rw [splitWsAux_false_step ' ' (joinWords (a :: as)) (w.reverse ++ []),
        if_pos (by decide)]
      obtain ⟨c, s', hcs, hca⟩ := joinWords_head a as (hw a (by simp)).1
      rw [hcs, splitWsAux_true_eq_false c s' [] ((hw a (by simp)).2 c hca), ← hcs]
      have hrec : splitWsAux false (joinWords (a :: as)) [] = a :: as :=
        ih (fun x hx => hw x (by simp [hx])) (by simp)
      rw [hrec]
      simp

theorem splitWs_join_space : ∀ (ws : List (List Char)), (∀ w ∈ ws, Wordish w) → ws ≠ [] →
    splitWs (joinWords ws ++ [' ']) = ws ++ [[]] := by
  intro ws
  induction ws with
  | nil => intro _ h; exact absurd rfl h
  | cons w ws ih =>
    intro hw _
    cases ws with
    | nil =>
      show splitWsAux false (joinWords [w] ++ [' ']) [] = [w, []]
      have : joinWords [w] ++ [' '] = w ++ [' '] := by simp [joinWords]
      rw [this, splitWsAux_consume w (hw w (by simp)).2 [' '] []]
      rw [show ([' '] : List Char) = ' ' :: [] from rfl,
        splitWsAux_false_step ' ' [] (w.reverse ++ []), if_pos (by decide)]
      simp [splitWsAux]
    | cons a as =>
      show splitWsAux false (joinWords (w :: a :: as) ++ [' ']) [] = (w :: a :: as) ++ [[]]
      rw [joinWords_cons w (a :: as) (by simp)]
      rw [show (w ++ ' ' :: joinWords (a :: as)) ++ [' '] =
          w ++ ' ' :: (joinWords (a :: as) ++ [' ']) from by simp]
      rw [splitWsAux_consume w (hw w (by simp)).2 (' ' :: (joinWords (a :: as) ++ [' '])) []]
      rw [splitWsAux_false_step ' ' (joinWords (a :: as) ++ [' ']) (w.reverse ++ []),
        if_pos (by decide)]
      obtain ⟨c, s', hcs, hca⟩ := joinWords_head a as (hw a (by simp)).1
      rw [show joinWords (a :: as) ++ [' '] = c :: (s' ++ [' ']) from by rw [hcs]; simp]
      rw [splitWsAux_true_eq_false c (s' ++ [' ']) [] ((hw a (by simp)).2 c hca)]
      rw [show (c :: (s' ++ [' '])) = joinWords (a :: as) ++ [' '] from by rw [hcs]; simp]
      have hrec : splitWsAux false (joinWords (a :: as) ++ [' ']) [] = (a :: as) ++ [[]] :=
        ih (fun x hx => hw x (by simp [hx])) (by simp)
      rw [hrec]
      simp

theorem breakCore_wordish (mw fs : ℚ) (ff fw : String) : ∀ (rest cp : List Char),
    (∀ c ∈ rest, isJsWs c = false) → (∀ c ∈ cp, isJsWs c = false) →
    ∀ part ∈ breakCore mw fs ff fw rest cp, Wordish part := by
  intro rest
  induction rest with
  | nil =>
    intro cp _ hcp part hpart
    unfold breakCore at hpart
    by_cases hne : cp = []
    · rw [if_neg (by simp [hne])] at hpart
      simp at hpart
    · rw [if_pos hne] at hpart
      rw [List.mem_singleton] at hpart
      subst hpart
      exact ⟨hne, hcp⟩
  | cons c rest ih =>
    intro cp hrest hcp part hpart
    have hc : isJsWs c = false := hrest c (by simp)
    have hrest' : ∀ d ∈ rest, isJsWs d = false := fun d hd => hrest d (by simp [hd])
    unfold breakCore at hpart
    dsimp only at hpart
    split at hpart
    · refine ih (cp ++ [c]) hrest' ?_ part hpart
      intro d hd
      rcases List.mem_append.mp hd with h1 | h2
      · exact hcp d h1
      · rw [List.mem_singleton] at h2; subst h2; exact hc
    · split at hpart
      · rcases List.mem_cons.mp hpart with h1 | h2
        · subst h1
          refine ⟨by simp, ?_⟩
          intro d hd
          rcases List.mem_append.mp hd with h3 | h4
          · exact hcp d h3
          · rw [List.mem_singleton] at h4; subst h4; decide
        · refine ih [c] hrest' ?_ part h2
          intro d hd
          rw [List.mem_singleton] at hd; subst hd; exact hc
      · rcases List.mem_cons.mp hpart with h1 | h2
        · subst h1
          exact ⟨by simp, by
            intro d hd
            rw [List.mem_singleton] at hd
            subst hd
            exact hc⟩
        · exact ih [] hrest' (by simp) part h2

theorem breakCore_ne_nil (mw fs : ℚ) (ff fw : String) : ∀ (rest cp : List Char),
    rest ≠ [] → breakCore mw fs ff fw rest cp ≠ [] := by
  intro rest
  induction rest with
  | nil => intro cp h; exact absurd rfl h
  | cons c rest ih =>
    intro cp _
    unfold breakCore
    dsimp only
    split
    · rename_i hcond
      exact ih _ hcond.2
    · split <;> simp

theorem getLastD_mem (l : List (List Char)) (h : l ≠ []) : (l.getLast?).getD [] ∈ l := by
  rw [List.getLast?_eq_getLast l h]
  exact List.getLast_mem h

theorem processWord_nil_nil (mw fs : ℚ) (ff fw : String) (lines : List (List Char)) :
    processWord mw fs ff fw ⟨lines, []⟩ [] = ⟨lines, []⟩ := by
  unfold processWord
  dsimp only
  rw [if_pos rfl]
  by_cases h : estimateTextWidth [] fs ff fw ≤ mw
  · rw [if_pos h]
  · rw [if_neg h]
    rw [if_neg (by simp)]
    unfold breakLongWord
    rw [if_neg h]
    rw [show breakCore mw fs ff fw [] [] = [] from rfl]
    simp

theorem wordish_niceCl {w : List Char} (h : Wordish w) : NiceCl w :=
  Or.inr ⟨[w], by simpa using h, by simp, by simp [joinWords]⟩

theorem wordish_goodLine {w : List Char} (h : Wordish w) : GoodLine w :=
  niceCl_goodLine (wordish_niceCl h)

theorem processWord_inv (mw fs : ℚ) (ff fw : String) (lines : List (List Char))
    (cl : List Char) (word : List Char)
    (hl : ∀ L ∈ lines, GoodLine L) (hcl : NiceCl cl) (hword : Wordish word) :
    (∀ L ∈ (processWord mw fs ff fw ⟨lines, cl⟩ word).lines, GoodLine L) ∧
      NiceCl (processWord mw fs ff fw ⟨lines, cl⟩ word).currentLine := by
  unfold processWord
  dsimp only
  rcases hcl with hcl0 | ⟨ws, hws, hwsne, hcleq⟩
  · subst hcl0
    rw [if_pos rfl]
    by_cases h1 : estimateTextWidth word fs ff fw ≤ mw
    · rw [if_pos h1]
      exact ⟨hl, wordish_niceCl hword⟩
    · rw [if_neg h1, if_neg (by simp)]
      have hbl : breakLongWord word mw fs ff fw = breakCore mw fs ff fw word [] := by
        unfold breakLongWord
        rw [if_neg h1]
      have hparts : ∀ part ∈ breakLongWord word mw fs ff fw, Wordish part := by
        rw [hbl]
        exact breakCore_wordish mw fs ff fw word [] hword.2 (by simp)
      have hbne : breakLongWord word mw fs ff fw ≠ [] := by
        rw [hbl]
        exact breakCore_ne_nil mw fs ff fw word [] hword.1
      constructor
      · intro L hL
        dsimp only at hL
        rcases List.mem_append.mp hL with h2 | h3
        · exact hl L h2
        · exact wordish_goodLine (hparts L (List.dropLast_subset _ h3))
      · exact wordish_niceCl (hparts _ (getLastD_mem _ hbne))
  · have hclne : cl ≠ [] := hcleq ▸ joinWords_ne_nil hwsne hws
    rw [if_neg hclne]
    by_cases h1 : estimateTextWidth (cl ++ ' ' :: word) fs ff fw ≤ mw
    · rw [if_pos h1]
      refine ⟨hl, Or.inr ⟨ws ++ [word], ?_, by simp, ?_⟩⟩
      · intro x hx
        rcases List.mem_append.mp hx with h2 | h3
        · exact hws x h2
        · rw [List.mem_singleton] at h3
          subst h3
          exact hword
      · rw [hcleq, joinWords_snoc ws hwsne word]
    · rw [if_neg h1, if_pos hclne]
      have hclgood : GoodLine cl := niceCl_goodLine (Or.inr ⟨ws, hws, hwsne, hcleq⟩)
      by_cases h2 : estimateTextWidth word fs ff fw > mw
      · rw [if_pos h2]
        have hbl : breakLongWord word mw fs ff fw = breakCore mw fs ff fw word [] := by
          unfold breakLongWord
          rw [if_neg (not_le.mpr h2)]
        have hparts : ∀ part ∈ breakLongWord word mw fs ff fw, Wordish part := by
          rw [hbl]
          exact breakCore_wordish mw fs ff fw word [] hword.2 (by simp)
        split
        · rename_i b0 b1 bs hbk
          constructor
          · intro L hL
            dsimp only at hL
            rcases List.mem_append.mp hL with h3 | h4
            · exact hl L h3
            · rcases List.mem_cons.mp h4 with h5 | h6
              · subst h5
                exact hclgood
              · rw [List.mem_singleton] at h6
                rw [h6]
                exact wordish_goodLine (hparts b0 (by rw [hbk]; simp))
          · refine Or.inr ⟨b1 :: bs, ?_, by simp, rfl⟩
            intro x hx
            exact hparts x (by rw [hbk]; exact List.mem_cons_of_mem b0 hx)
        · constructor
          · intro L hL
            dsimp only at hL
            rcases List.mem_append.mp hL with h3 | h4
            · exact hl L h3
            · rw [List.mem_singleton] at h4
              subst h4
              exact hclgood
          · exact wordish_niceCl hword
      · rw [if_neg h2]
        constructor
        · intro L hL
          dsimp only at hL
          rcases List.mem_append.mp hL with h3 | h4
          · exact hl L h3
          · rw [List.mem_singleton] at h4
            subst h4
            exact hclgood
        · exact wordish_niceCl hword

theorem processWord_empty_inv (mw fs : ℚ) (ff fw : String) (lines : List (List Char))
    (cl : List Char)
    (hl : ∀ L ∈ lines, GoodLine L) (hcl : NiceCl cl) :
    (∀ L ∈ (processWord mw fs ff fw ⟨lines, cl⟩ []).lines, GoodLine L) ∧
      GoodLine (processWord mw fs ff fw ⟨lines, cl⟩ []).currentLine := by
  rcases hcl with hcl0 | ⟨ws, hws, hwsne, hcleq⟩
  · subst hcl0
    rw [processWord_nil_nil]
    exact ⟨hl, Or.inl rfl⟩
  · have hclne : cl ≠ [] := hcleq ▸ joinWords_ne_nil hwsne hws
    have hclgood : GoodLine cl := niceCl_goodLine (Or.inr ⟨ws, hws, hwsne, hcleq⟩)
    unfold processWord
    dsimp only
    rw [if_neg hclne]
    by_cases h1 : estimateTextWidth (cl ++ [' ']) fs ff fw ≤ mw
    · rw [if_pos h1]
      exact ⟨hl, Or.inr ⟨ws, [' '], hws, hwsne, Or.inr rfl, by rw [hcleq]⟩⟩
    · rw [if_neg h1, if_pos hclne]
      by_cases h2 : estimateTextWidth [] fs ff fw > mw
      · rw [if_pos h2]
        have hbl : breakLongWord [] mw fs ff fw = [] := by
          unfold breakLongWord
          rw [if_neg (not_le.mpr h2)]
          rfl
        rw [hbl]
        constructor
        · intro L hL
          dsimp only at hL
          rcases List.mem_append.mp hL with h3 | h4
          · exact hl L h3
          · rw [List.mem_singleton] at h4
            subst h4
            exact hclgood
        · exact Or.inl rfl
      · rw [if_neg h2]
        constructor
        · intro L hL
          dsimp only at hL
          rcases List.mem_append.mp hL with h3 | h4
          · exact hl L h3
          · rw [List.mem_singleton] at h4
            subst h4
            exact hclgood
        · exact Or.inl rfl

theorem foldl_processWord_inv (mw fs : ℚ) (ff fw : String) :
    ∀ (words : List (List Char)) (lines : List (List Char)) (cl : List Char),
      (∀ w ∈ words, Wordish w) → (∀ L ∈ lines, GoodLine L) → NiceCl cl →
      (∀ L ∈ (words.foldl (processWord mw fs ff fw) ⟨lines, cl⟩).lines, GoodLine L) ∧
        NiceCl (words.foldl (processWord mw fs ff fw) ⟨lines, cl⟩).currentLine := by
  intro words
  induction words with
  | nil => intro lines cl _ hl hcl; exact ⟨hl, hcl⟩
  | cons w ws ih =>
    intro lines cl hw hl hcl
    rw [List.foldl_cons]
    obtain ⟨h1, h2⟩ := processWord_inv mw fs ff fw lines cl w hl hcl (hw w (by simp))
    have := ih (processWord mw fs ff fw ⟨lines, cl⟩ w).lines
      (processWord mw fs ff fw ⟨lines, cl⟩ w).currentLine
      (fun x hx => hw x (by simp [hx])) h1 h2
    simpa using this

theorem processParagraph_goodLines (mw fs : ℚ) (ff fw : String) (p : List Char) :
    ∀ L ∈ processParagraph mw fs ff fw p, GoodLine L := by
  intro L hL
  unfold processParagraph at hL
  by_cases hwsonly : p.all isJsWs
  · rw [if_pos hwsonly] at hL
    rw [List.mem_singleton] at hL
    rw [hL]
    exact Or.inl rfl
  · rw [if_neg hwsonly] at hL
    dsimp only at hL
    obtain ⟨mids, trail, hmids, htrail, hshape⟩ := splitWsAux_shape p false []
    rw [if_neg (by simp)] at hshape
    obtain ⟨w0, hw0⟩ := hshape
    simp only [List.reverse_nil, List.nil_append] at hw0
    have hfree : ∀ w ∈ splitWs p, ∀ c ∈ w, isJsWs c = false :=
      splitWsAux_wsfree p false [] (by simp)
    have hsplit : splitWs p = w0 :: (mids ++ trail) := hw0
    rw [hsplit] at hL
    rw [List.foldl_cons] at hL
    -- state after the first word
    have hst1 : (∀ L ∈ (processWord mw fs ff fw ⟨[], []⟩ w0).lines, GoodLine L) ∧
        NiceCl (processWord mw fs ff fw ⟨[], []⟩ w0).currentLine := by
      by_cases hw0e : w0 = []
      · rw [hw0e, processWord_nil_nil]
        exact ⟨by simp, Or.inl rfl⟩
      · exact processWord_inv mw fs ff fw [] [] w0 (by simp) (Or.inl rfl)
          ⟨hw0e, fun c hc => hfree w0 (by rw [hsplit]; simp) c hc⟩
    obtain ⟨hst1l, hst1c⟩ := hst1
    have hmidsw : ∀ w ∈ mids, Wordish w := by
      intro w hw
      exact ⟨hmids w hw, fun c hc => hfree w (by rw [hsplit]; simp [hw]) c hc⟩
    -- fold over mids then the optional trailing empty word
    rcases htrail with ht | ht
    · subst ht
      rw [List.append_nil] at hL
      obtain ⟨hfl, hfc⟩ := foldl_processWord_inv mw fs ff fw mids _ _ hmidsw hst1l hst1c
      split at hL
      · rcases List.mem_append.mp hL with h1 | h2
        · exact hfl L h1
        · rw [List.mem_singleton] at h2
          rw [h2]
          exact niceCl_goodLine hfc
      · exact hfl L hL
    · subst ht
      rw [List.foldl_append] at hL
      obtain ⟨hfl, hfc⟩ := foldl_processWord_inv mw fs ff fw mids _ _ hmidsw hst1l hst1c
      rw [List.foldl_cons, List.foldl_nil] at hL
      have hpair : (mids.foldl (processWord mw fs ff fw) (processWord mw fs ff fw ⟨[], []⟩ w0)) =
          ⟨(mids.foldl (processWord mw fs ff fw) (processWord mw fs ff fw ⟨[], []⟩ w0)).lines,
            (mids.foldl (processWord mw fs ff fw)
              (processWord mw fs ff fw ⟨[], []⟩ w0)).currentLine⟩ := rfl
      rw [hpair] at hL
      obtain ⟨hel, hec⟩ := processWord_empty_inv mw fs ff fw _ _ hfl hfc
      split at hL
      · rcases List.mem_append.mp hL with h1 | h2
        · exact hel L h1
        · rw [List.mem_singleton] at h2
          rw [h2]
          exact hec
      · exact hel L hL

theorem wrapText_goodLines (text : List Char) (mw fs : ℚ) (ff fw : String) :
    ∀ L ∈ wrapText text mw fs ff fw, GoodLine L := by
  intro L hL
  unfold wrapText at hL
  obtain ⟨p, _, hLp⟩ := List.mem_flatMap.mp hL
  exact processParagraph_goodLines mw fs ff fw p L hLp

theorem joinWords_append (pre post : List (List Char)) (hpre : pre ≠ []) (hpost : post ≠ []) :
    joinWords (pre ++ post) = joinWords pre ++ ' ' :: joinWords post := by
  induction pre with
  | nil => exact absurd rfl hpre
  | cons w pre ih =>
    cases pre with
    | nil =>
      rw [List.singleton_append, joinWords_cons w post hpost]
      rfl
    | cons a as =>
      rw [List.cons_append, joinWords_cons w ((a :: as) ++ post) (by simp),
        joinWords_cons w (a :: as) (by simp), ih (by simp)]
      simp

theorem joinWords_take (ws : List (List Char)) (j : ℕ) (h : ws.take j ≠ []) :
    ∃ suffix, joinWords (ws.take j) ++ suffix = joinWords ws := by
  cases hd : ws.drop j with
  | nil =>
    refine ⟨[], ?_⟩
    rw [List.append_nil]
    conv_rhs => rw [← List.take_append_drop j ws]
    rw [hd, List.append_nil]
  | cons d ds =>
    refine ⟨' ' :: joinWords (d :: ds), ?_⟩
    conv_rhs => rw [← List.take_append_drop j ws]
    rw [hd]
    rw [joinWords_append (ws.take j) (d :: ds) h (by simp)]

theorem width_le_of_suffix (a suffix : List Char) (fs : ℚ) (ff fw : String) (hfs : 0 ≤ fs) :
    estimateTextWidth a fs ff fw ≤ estimateTextWidth (a ++ suffix) fs ff fw := by
  rw [estimateTextWidth_append]
  have := estimateTextWidth_nonneg suffix hfs ff fw
  linarith

theorem foldl_processWord_join (mw fs : ℚ) (ff fw : String) :
    ∀ (rest pre lines : List (List Char)),
      joinWords pre ≠ [] →
      (∀ k, k ≤ rest.length →
        estimateTextWidth (joinWords (pre ++ rest.take k)) fs ff fw ≤ mw) →
      rest.foldl (processWord mw fs ff fw) ⟨lines, joinWords pre⟩ =
        ⟨lines, joinWords (pre ++ rest)⟩ := by
  intro rest
  induction rest with
  | nil =>
    intro pre lines _ _
    rw [List.foldl_nil, List.append_nil]
  | cons r rest ih =>
    intro pre lines hpre hwidth
    have hprene : pre ≠ [] := by
      intro he
      rw [he] at hpre
      exact hpre rfl
    have hw1 : estimateTextWidth (joinWords (pre ++ [r])) fs ff fw ≤ mw := by
      have := hwidth 1 (by simp)
      simpa using this
    have hstep : processWord mw fs ff fw ⟨lines, joinWords pre⟩ r =
        ⟨lines, joinWords (pre ++ [r])⟩ := by
      unfold processWord
      dsimp only
      rw [if_neg hpre]
      rw [show joinWords pre ++ ' ' :: r = joinWords (pre ++ [r]) from
        (joinWords_snoc pre hprene r).symm]
      rw [if_pos hw1]
    rw [List.foldl_cons, hstep]
    have := ih (pre ++ [r]) lines
      (by rw [joinWords_snoc pre hprene r]; simp)
      (by
        intro k hk
        have h2 := hwidth (k + 1) (by simpa using hk)
        rw [show pre ++ [r] ++ rest.take k = pre ++ (r :: rest).take (k + 1) from by simp]
        exact h2)
    rw [this]
    simp

unseal Rat.add Rat.mul Rat.sub Rat.inv Rat.ofScientific in
/-- C9 fails as stated for negative font sizes: with font size -10 and
max width -50 (Arial normal), the line "g h iiiiiiiiiiiiiiiiii" is
produced by wrapText on "aa egh iiiiiiiiiiiiiiiiii" (it arises by
appending a word to a currentLine that was rebuilt by joining hyphen
fragments) and its estimated width -50.96 is ≤ -50, yet wrapping it again
yields four lines, not the line itself: with negative character widths
the greedy scan of the re-split words overflows immediately and pushes
the first words out separately. -/
theorem wrapText_idempotent_fails :
    (['g', ' ', 'h', ' '] ++ List.replicate 18 'i') ∈
      wrapText (['a', 'a', ' ', 'e', 'g', 'h', ' '] ++ List.replicate 18 'i')
        (-50) (-10) "Arial" "normal" ∧
    estimateTextWidth (['g', ' ', 'h', ' '] ++ List.replicate 18 'i')
        (-10) "Arial" "normal" ≤ -50 ∧
    wrapText (['g', ' ', 'h', ' '] ++ List.replicate 18 'i') (-50) (-10) "Arial" "normal" ≠
      [['g', ' ', 'h', ' '] ++ List.replicate 18 'i'] := by
  refine ⟨by decide, by decide, by decide⟩

/-- C9 amended: for a non-negative font size, wrapping is idempotent on
any already-produced line that fits: if L is an output line of wrapText
(same width, size, family, weight) and L's estimated width is at most the
max width, then wrapping L returns [L] unchanged. -/
theorem wrapText_idempotent (text : List Char) (mw fs : ℚ) (ff fw : String)
    (hfs : 0 ≤ fs) (L : List Char) (hL : L ∈ wrapText text mw fs ff fw)
    (hfit : estimateTextWidth L fs ff fw ≤ mw) :
    wrapText L mw fs ff fw = [L] := by
  rcases wrapText_goodLines text mw fs ff fw L hL with h0 | ⟨ws, tail, hws, hwsne, htail, hLeq⟩
  · rw [h0]
    rfl
  · obtain ⟨w1, ws', rfl⟩ : ∃ w1 ws', ws = w1 :: ws' := by
      cases ws with
      | nil => exact absurd rfl hwsne
      | cons a as => exact ⟨a, as, rfl⟩
    obtain ⟨c0, s0, hc0, hc0w⟩ := joinWords_head w1 ws' (hws w1 (by simp)).1
    have hc0free : isJsWs c0 = false := (hws w1 (by simp)).2 c0 hc0w
    -- L contains no newline, so splitNl leaves it whole
    have hnl : splitNl L = [L] := by
      apply splitNl_no_newline
      intro c hc he
      subst he
      rw [hLeq] at hc
      rcases List.mem_append.mp hc with h1 | h2
      · rcases mem_joinWords h1 with h3 | ⟨w, hw1, hw2⟩
        · exact absurd h3 (by decide)
        · have := (hws w hw1).2 '\n' hw2
          rw [show isJsWs '\n' = true from by decide] at this
          exact Bool.true_eq_false.mp this
      · rcases htail with ht | ht
        · rw [ht] at h2
          simp at h2
        · rw [ht, List.mem_singleton] at h2
          exact absurd h2 (by decide)
    -- L is not whitespace-only
    have hnotall : ¬ (L.all isJsWs = true) := by
      rw [List.all_eq_true]
      push_neg
      refine ⟨c0, ?_, by rw [hc0free]; simp⟩
      rw [hLeq, hc0]
      simp
    -- widths of all word-join prefixes fit
    have hwidthL : ∀ j, (w1 :: ws').take j ≠ [] →
        estimateTextWidth (joinWords ((w1 :: ws').take j)) fs ff fw ≤ mw := by
      intro j hj
      obtain ⟨suffix, hsuf⟩ := joinWords_take (w1 :: ws') j hj
      calc estimateTextWidth (joinWords ((w1 :: ws').take j)) fs ff fw
          ≤ estimateTextWidth (joinWords ((w1 :: ws').take j) ++ (suffix ++ tail)) fs ff fw :=
            width_le_of_suffix _ _ fs ff fw hfs
        _ = estimateTextWidth L fs ff fw := by
            rw [← List.append_assoc, hsuf, ← hLeq]
        _ ≤ mw := hfit
    -- the first word fits and starts the accumulation
    have hw1fit : estimateTextWidth w1 fs ff fw ≤ mw := by
      have := hwidthL 1 (by simp)
      simpa [joinWords] using this
    have hstep1 : processWord mw fs ff fw ⟨[], []⟩ w1 = ⟨[], joinWords [w1]⟩ := by
      unfold processWord
      dsimp only
      rw [if_pos rfl]
      rw [show joinWords [w1] = w1 from rfl] at *
      rw [if_pos hw1fit]
    have hfold : ws'.foldl (processWord mw fs ff fw) ⟨[], joinWords [w1]⟩ =
        ⟨[], joinWords (w1 :: ws')⟩ := by
      have := foldl_processWord_join mw fs ff fw ws' [w1] []
        (by simp [joinWords]; exact (hws w1 (by simp)).1)
        (by
          intro k hk
          have := hwidthL (k + 1) (by simp)
          simpa using this)
      simpa using this
    -- now compute the rewrap
    unfold wrapText
    rw [hnl]
    simp only [List.flatMap_cons, List.flatMap_nil, List.append_nil]
    unfold processParagraph
    rw [if_neg hnotall]
    dsimp only
    rcases htail with ht | ht
    · -- no trailing space: words are exactly ws
      have hLj : L = joinWords (w1 :: ws') := by rw [hLeq, ht, List.append_nil]
      rw [show splitWs L = w1 :: ws' from by rw [hLj]; exact splitWs_join _ hws hwsne]
      rw [List.foldl_cons, hstep1, hfold]
      rw [if_pos (by
        dsimp only
        rw [← hLj]
        intro he
        rw [hLj] at he
        exact joinWords_ne_nil hwsne hws he)]
      dsimp only
      rw [← hLj]
      rfl
    · -- trailing space: words are ws plus a final empty word
      have hLj : L = joinWords (w1 :: ws') ++ [' '] := by rw [hLeq, ht]
      rw [show splitWs L = (w1 :: ws') ++ [[]] from by
        rw [hLj]; exact splitWs_join_space _ hws hwsne]
      rw [List.cons_append, List.foldl_cons, hstep1, List.foldl_append, hfold,
        List.foldl_cons, List.foldl_nil]
      have hlast : processWord mw fs ff fw ⟨[], joinWords (w1 :: ws')⟩ [] = ⟨[], L⟩ := by
        unfold processWord
        dsimp only
        rw [if_neg (joinWords_ne_nil hwsne hws)]
        rw [show joinWords (w1 :: ws') ++ ' ' :: ([] : List Char) = L from by
          rw [hLj]]
        rw [if_pos hfit]
      rw [hlast]
      rw [if_pos (by
        dsimp only
        rw [hLj]
        simp)]
      dsimp only
      rfl

unseal Rat.add Rat.mul Rat.sub Rat.inv Rat.ofScientific in
/-- Witness for the amended C9: the line "aa bb" produced by wrapping
"aa bb" at max width 30, font size 10, rewraps to itself. -/
theorem wrapText_idempotent_witness :
    ((0 : ℚ) ≤ 10 ∧
      (['a', 'a', ' ', 'b', 'b'] : List Char) ∈
        wrapText ['a', 'a', ' ', 'b', 'b'] 30 10 "Arial" "normal" ∧
      estimateTextWidth ['a', 'a', ' ', 'b', 'b'] 10 "Arial" "normal" ≤ 30) ∧
    wrapText ['a', 'a', ' ', 'b', 'b'] 30 10 "Arial" "normal" =
      [['a', 'a', ' ', 'b', 'b']] :=
  ⟨⟨by norm_num, by decide, by decide⟩,
    wrapText_idempotent ['a', 'a', ' ', 'b', 'b'] 30 10 "Arial" "normal" (by norm_num)
      ['a', 'a', ' ', 'b', 'b'] (by decide) (by decide)⟩
